import Mathlib

/-!
Verification of the segmentation and volume-series pipeline of the
Biomedical-Image-Analysis-in-Python repository.

The repository is a set of notebooks (ch3.ipynb: cardiac segmentation and
ejection fraction; ch4.ipynb: registration cost functions; an intensity
chapter with histogram and CDF code).  This file gives a shallow embedding
of the relevant code over Lean lists and rationals: numpy float results
are modelled by an explicit type with nan and infinities, fallible numpy
calls (reductions over empty arrays) by Except, and uint8 arithmetic by
explicit arithmetic modulo 256.
-/

namespace BioImage

/-- Model of a numpy floating-point scalar result: numpy division by zero
does not raise, it produces nan (0/0), inf (pos/0) or -inf (neg/0) and
otherwise an exact quotient (we model finite values by rationals). -/
inductive NpFloat
  | nan
  | inf
  | ninf
  | val (q : ℚ)
deriving DecidableEq, Repr

instance {ε α : Type} [DecidableEq ε] [DecidableEq α] : DecidableEq (Except ε α) := by
  intro a b
  cases a with
  | error e =>
      cases b with
      | error f => exact decidable_of_iff (e = f) (by simp)
      | ok y => exact isFalse (by simp)
  | ok x =>
      cases b with
      | error f => exact isFalse (by simp)
      | ok y => exact decidable_of_iff (x = y) (by simp)

/-- numpy elementwise/scalar division semantics on our rational model:
x / 0 is nan when x = 0, inf when x > 0, -inf when x < 0; otherwise the
exact quotient. -/
def npDiv (a b : ℚ) : NpFloat :=
  if b = 0 then (if a = 0 then .nan else if 0 < a then .inf else .ninf)
  else .val (a / b)

/-- np.max over a nonempty list (the empty case is never reached in
`ej_frac`, which errors before reduction on an empty array). -/
def npMax : List ℚ → ℚ
  | [] => 0
  | x :: xs => xs.foldl max x

/-- np.min over a nonempty list. -/
def npMin : List ℚ → ℚ
  | [] => 0
  | x :: xs => xs.foldl min x

/-- np.argmax: index of the first occurrence of the maximum value. -/
def argmaxIdx (l : List ℚ) : ℕ := l.findIdx (fun x => x == npMax l)

/-- np.argmin: index of the first occurrence of the minimum value. -/
def argminIdx (l : List ℚ) : ℕ := l.findIdx (fun x => x == npMin l)

/-- The ValueError message numpy raises for np.argmax on an empty array. -/
def zeroSizeErr : String := "attempt to get argmax of an empty sequence"

/-- Shallow embedding of the final cell of ch3.ipynb:

tmax = np.argmax(ts); tmin = np.argmin(ts);
ej_vol = ts.max() - ts.min(); ej_frac = ej_vol / ts.max().

On an empty series the first reduction (np.argmax) raises, which we model
as an error result; otherwise the cell computes the unguarded quotient and
the two extremum indices.  There is no degenerate-series check in the
source. -/
def ej_frac (ts : List ℚ) : Except String (NpFloat × ℕ × ℕ) :=
  match ts with
  | [] => .error zeroSizeErr
  | _ :: _ => .ok (npDiv (npMax ts - npMin ts) (npMax ts), argmaxIdx ts, argminIdx ts)

/- Auxiliary facts about foldl max / foldl min. -/

theorem le_foldl_max (x : ℚ) (xs : List ℚ) : x ≤ xs.foldl max x := by
  induction xs generalizing x with
  | nil => exact le_refl x
  | cons y ys ih =>
      calc x ≤ max x y := le_max_left x y
        _ ≤ ys.foldl max (max x y) := ih (max x y)

theorem mem_le_foldl_max (x : ℚ) (xs : List ℚ) :
    ∀ y ∈ xs, y ≤ xs.foldl max x := by
  induction xs generalizing x with
  | nil => intro y hy; cases hy
  | cons z zs ih =>
      intro y hy
      rcases List.mem_cons.mp hy with h | h
      · subst h
        calc y ≤ max x y := le_max_right x y
          _ ≤ zs.foldl max (max x y) := le_foldl_max _ _
      · exact ih (max x z) y h

theorem foldl_max_mem (x : ℚ) (xs : List ℚ) :
    xs.foldl max x ∈ x :: xs := by
  induction xs generalizing x with
  | nil => exact List.mem_singleton.mpr rfl
  | cons y ys ih =>
      have h := ih (max x y)
      simp only [List.foldl_cons]
      rcases List.mem_cons.mp h with h1 | h1
      · rcases max_choice x y with hc | hc
        · exact List.mem_cons.mpr (Or.inl (by rw [h1, hc]))
        · refine List.mem_cons.mpr (Or.inr ?_)
          exact List.mem_cons.mpr (Or.inl (by rw [h1, hc]))
      · exact List.mem_cons.mpr (Or.inr (List.mem_cons.mpr (Or.inr h1)))

theorem foldl_min_le (x : ℚ) (xs : List ℚ) : xs.foldl min x ≤ x := by
  induction xs generalizing x with
  | nil => exact le_refl x
  | cons y ys ih =>
      calc ys.foldl min (min x y) ≤ min x y := ih (min x y)
        _ ≤ x := min_le_left x y

theorem foldl_min_le_mem (x : ℚ) (xs : List ℚ) :
    ∀ y ∈ xs, xs.foldl min x ≤ y := by
  induction xs generalizing x with
  | nil => intro y hy; cases hy
  | cons z zs ih =>
      intro y hy
      rcases List.mem_cons.mp hy with h | h
      · subst h
        calc zs.foldl min (min x y) ≤ min x y := foldl_min_le _ _
          _ ≤ y := min_le_right x y
      · exact ih (min x z) y h

theorem foldl_min_mem (x : ℚ) (xs : List ℚ) :
    xs.foldl min x ∈ x :: xs := by
  induction xs generalizing x with
  | nil => exact List.mem_singleton.mpr rfl
  | cons y ys ih =>
      have h := ih (min x y)
      simp only [List.foldl_cons]
      rcases List.mem_cons.mp h with h1 | h1
      · rcases min_choice x y with hc | hc
        · exact List.mem_cons.mpr (Or.inl (by rw [h1, hc]))
        · refine List.mem_cons.mpr (Or.inr ?_)
          exact List.mem_cons.mpr (Or.inl (by rw [h1, hc]))
      · exact List.mem_cons.mpr (Or.inr (List.mem_cons.mpr (Or.inr h1)))

theorem npMax_mem (ts : List ℚ) (h : ts ≠ []) : npMax ts ∈ ts := by
  cases ts with
  | nil => exact absurd rfl h
  | cons x xs => exact foldl_max_mem x xs

theorem npMin_mem (ts : List ℚ) (h : ts ≠ []) : npMin ts ∈ ts := by
  cases ts with
  | nil => exact absurd rfl h
  | cons x xs => exact foldl_min_mem x xs

theorem le_npMax (ts : List ℚ) : ∀ y ∈ ts, y ≤ npMax ts := by
  cases ts with
  | nil => intro y hy; cases hy
  | cons x xs =>
      intro y hy
      rcases List.mem_cons.mp hy with h | h
      · rw [h]; exact le_foldl_max x xs
      · exact mem_le_foldl_max x xs y h

theorem npMin_le (ts : List ℚ) : ∀ y ∈ ts, npMin ts ≤ y := by
  cases ts with
  | nil => intro y hy; cases hy
  | cons x xs =>
      intro y hy
      rcases List.mem_cons.mp hy with h | h
      · rw [h]; exact foldl_min_le x xs
      · exact foldl_min_le_mem x xs y h

theorem argmaxIdx_lt_length (ts : List ℚ) (h : ts ≠ []) :
    argmaxIdx ts < ts.length := by
  apply List.findIdx_lt_length_of_exists
  exact ⟨npMax ts, npMax_mem ts h, beq_self_eq_true (npMax ts)⟩

theorem argminIdx_lt_length (ts : List ℚ) (h : ts ≠ []) :
    argminIdx ts < ts.length := by
  apply List.findIdx_lt_length_of_exists
  exact ⟨npMin ts, npMin_mem ts h, beq_self_eq_true (npMin ts)⟩

theorem getD_argmaxIdx (ts : List ℚ) (h : ts ≠ []) :
    ts.getD (argmaxIdx ts) 0 = npMax ts := by
  have hlt := argmaxIdx_lt_length ts h
  have hp := List.findIdx_getElem (p := fun x => x == npMax ts) (w := hlt)
  rw [List.getD_eq_getElem ts 0 hlt]
  exact eq_of_beq hp

theorem getD_argminIdx (ts : List ℚ) (h : ts ≠ []) :
    ts.getD (argminIdx ts) 0 = npMin ts := by
  have hlt := argminIdx_lt_length ts h
  have hp := List.findIdx_getElem (p := fun x => x == npMin ts) (w := hlt)
  rw [List.getD_eq_getElem ts 0 hlt]
  exact eq_of_beq hp

/-- C1 counterexample: on the all-zero (hence degenerate, max = 0) series
[0], the code does not fail with a degenerate-series error; it returns the
unguarded quotient 0/0, i.e. NaN, together with the extremum indices. -/
theorem ej_frac_all_zero_returns_nan :
    ej_frac [0] = .ok (.nan, 0, 0) := by
  show Except.ok (npDiv (npMax [0] - npMin [0]) (npMax [0]), argmaxIdx [0], argminIdx [0]) = _
  norm_num [npMax, npMin, npDiv, argmaxIdx, argminIdx, List.findIdx_cons,
    List.foldl_nil, cond_eq_if, beq_iff_eq]

/-- C1 (amended): the source has no degenerate-series check.  On an empty
series the computation surfaces numpy's zero-size reduction error
(np.argmax raises), and on a non-empty nonnegative series whose maximum is
0 the unguarded division 0/0 yields NaN rather than an explicit
degenerate-series error result. -/
theorem ej_frac_degenerate_unguarded (ts : List ℚ) :
    (ts = [] → ej_frac ts = .error zeroSizeErr)
    ∧ (ts ≠ [] → (∀ x ∈ ts, 0 ≤ x) → npMax ts = 0 →
        ej_frac ts = .ok (.nan, argmaxIdx ts, argminIdx ts)) := by
  constructor
  · intro h; rw [h]; rfl
  · intro hne hnn hmax
    have hminmem := npMin_mem ts hne
    have hmin0 : npMin ts = 0 :=
      le_antisymm (hmax ▸ le_npMax ts _ hminmem) (hnn _ hminmem)
    cases ts with
    | nil => exact absurd rfl hne
    | cons x xs =>
        have heq : ej_frac (x :: xs) =
            .ok (npDiv (npMax (x :: xs) - npMin (x :: xs)) (npMax (x :: xs)),
              argmaxIdx (x :: xs), argminIdx (x :: xs)) := rfl
        rw [heq, hmax, hmin0]
        norm_num [npDiv]

/-- C1 witness: the amended behavior at the concrete degenerate inputs []
and [0, 0]. -/
theorem ej_frac_degenerate_unguarded_witness :
    ej_frac [] = .error zeroSizeErr ∧ ej_frac [0, 0] = .ok (.nan, 0, 0) := by
  constructor
  · exact (ej_frac_degenerate_unguarded []).1 rfl
  · have h := (ej_frac_degenerate_unguarded [0, 0]).2 (by simp) (by norm_num)
      (by norm_num [npMax, List.foldl_cons, List.foldl_nil, max_self])
    rw [h]
    norm_num [argmaxIdx, argminIdx, npMax, npMin, List.findIdx_cons,
      List.foldl_cons, List.foldl_nil, cond_eq_if, beq_iff_eq, max_self, min_self]

/-- C3: on a non-empty series with positive maximum, the code returns the
exact ratio (max - min) / max along with np.argmax and np.argmin, which
are valid indices attaining the maximum and the minimum respectively. -/
theorem ej_frac_nonempty_positive_max (ts : List ℚ) (hne : ts ≠ [])
    (hpos : 0 < npMax ts) :
    ej_frac ts =
      .ok (.val ((npMax ts - npMin ts) / npMax ts), argmaxIdx ts, argminIdx ts)
    ∧ argmaxIdx ts < ts.length ∧ argminIdx ts < ts.length
    ∧ ts.getD (argmaxIdx ts) 0 = npMax ts
    ∧ ts.getD (argminIdx ts) 0 = npMin ts := by
  refine ⟨?_, argmaxIdx_lt_length ts hne, argminIdx_lt_length ts hne,
    getD_argmaxIdx ts hne, getD_argminIdx ts hne⟩
  cases ts with
  | nil => exact absurd rfl hne
  | cons x xs =>
      have heq : ej_frac (x :: xs) =
          .ok (npDiv (npMax (x :: xs) - npMin (x :: xs)) (npMax (x :: xs)),
            argmaxIdx (x :: xs), argminIdx (x :: xs)) := rfl
      rw [heq]
      unfold npDiv
      rw [if_neg (ne_of_gt hpos)]

/-- C3 witness: the spec scenario [100, 80, 120, 90] evaluates to the
ratio (120 - 80) / 120 = 1/3 with max index 2 and min index 1. -/
theorem ej_frac_scenario :
    ej_frac [100, 80, 120, 90] = .ok (.val ((120 - 80) / 120), 2, 1) := by
  have h := ej_frac_nonempty_positive_max [100, 80, 120, 90] (by simp)
    (by norm_num [npMax, List.foldl_cons, List.foldl_nil, max_def])
  rw [h.1]
  norm_num [npMax, npMin, argmaxIdx, argminIdx, List.findIdx_cons,
    List.foldl_cons, List.foldl_nil, max_def, min_def, cond_eq_if, beq_iff_eq]

/-- getD of a mapped list at an in-bounds index. -/
theorem getD_map_lt {α β : Type} (f : α → β) (l : List α) (i : ℕ)
    (h : i < l.length) (d : β) (d2 : α) :
    (l.map f).getD i d = f (l.getD i d2) := by
  rw [List.getD_eq_getElem (l.map f) d (by simpa using h),
    List.getD_eq_getElem l d2 h]
  exact List.getElem_map f

/-- Embedding of the ch3.ipynb component-selection cell: the line
lv_val = labels[128, 128] reads the label map at the anchor coordinate.
It is an unconditional array read with no background check. -/
def lv_val (labels : List (List ℕ)) (r c : ℕ) : ℕ :=
  (labels.getD r []).getD c 0

/-- Embedding of lv_mask = np.where(labels == lv_val, 1, np.nan): a float
array holding 1.0 where the label map equals the selected value and NaN
elsewhere. -/
def lv_mask (labels : List (List ℕ)) (v : ℕ) : List (List NpFloat) :=
  labels.map (List.map (fun x => if x = v then .val 1 else .nan))

/-- C2 counterexample: with the anchor on background (label value 0), the
code does not produce a distinct no-component failure; it returns the
background value 0 and the subsequent np.where mask silently selects the
background cells. -/
theorem lv_val_background_no_failure :
    lv_val [[0, 1], [0, 1]] 0 0 = 0
    ∧ lv_mask [[0, 1], [0, 1]] (lv_val [[0, 1], [0, 1]] 0 0) =
        [[.val 1, .nan], [.val 1, .nan]] := by
  exact ⟨rfl, rfl⟩

/-- C2 (amended): select_component reads the label value at the in-bounds
anchor coordinate and returns it unconditionally; when that value is 0
(background) no failure is surfaced, and the derived selection mask marks
exactly the background cells as selected. -/
theorem lv_val_reads_anchor_unconditionally (labels : List (List ℕ)) (r c : ℕ)
    (hr : r < labels.length) (hc : c < (labels.getD r []).length) :
    lv_val labels r c = (labels.getD r []).getD c 0
    ∧ (lv_val labels r c = 0 →
        ∀ i j, i < labels.length → j < (labels.getD i []).length →
          ((lv_mask labels (lv_val labels r c)).getD i []).getD j .nan =
            (if (labels.getD i []).getD j 0 = 0 then .val 1 else .nan)) := by
  have _hrc : r < labels.length ∧ c < (labels.getD r []).length := ⟨hr, hc⟩
  refine ⟨rfl, ?_⟩
  intro h0 i j hi hj
  rw [h0]
  unfold lv_mask
  rw [getD_map_lt (List.map fun x => if x = 0 then NpFloat.val 1 else NpFloat.nan)
    labels i hi [] []]
  rw [getD_map_lt (fun x => if x = 0 then NpFloat.val 1 else NpFloat.nan)
    (labels.getD i []) j hj NpFloat.nan 0]

/-- C2 witness: the amended behavior at the concrete label map
[[0, 1], [0, 1]] with the in-bounds anchor (0, 0). -/
theorem lv_val_reads_anchor_unconditionally_witness :
    (0 < ([[0, 1], [0, 1]] : List (List ℕ)).length
      ∧ 0 < (([[0, 1], [0, 1]] : List (List ℕ)).getD 0 []).length)
    ∧ (lv_val [[0, 1], [0, 1]] 0 0 =
        (([[0, 1], [0, 1]] : List (List ℕ)).getD 0 []).getD 0 0
      ∧ (lv_val [[0, 1], [0, 1]] 0 0 = 0 →
          ∀ i j, i < ([[0, 1], [0, 1]] : List (List ℕ)).length →
            j < (([[0, 1], [0, 1]] : List (List ℕ)).getD i []).length →
            ((lv_mask [[0, 1], [0, 1]] (lv_val [[0, 1], [0, 1]] 0 0)).getD i []).getD j .nan =
              (if (([[0, 1], [0, 1]] : List (List ℕ)).getD i []).getD j 0 = 0
                then .val 1 else .nan))) :=
  ⟨⟨by decide, by decide⟩,
    lv_val_reads_anchor_unconditionally [[0, 1], [0, 1]] 0 0 (by decide) (by decide)⟩

/-- Rectangular grid builder: R rows, C columns, cell (i, j) holds f i j.
Every numpy array-producing operation below is expressed with it. -/
def grid {α : Type} (R C : ℕ) (f : ℕ → ℕ → α) : List (List α) :=
  (List.range R).map fun i => (List.range C).map fun j => f i j

theorem grid_length {α : Type} (R C : ℕ) (f : ℕ → ℕ → α) :
    (grid R C f).length = R := by
  simp [grid]

theorem grid_row_length {α : Type} (R C : ℕ) (f : ℕ → ℕ → α) :
    ∀ row ∈ grid R C f, row.length = C := by
  intro row hrow
  rcases List.mem_map.mp hrow with ⟨i, _, hi⟩
  rw [← hi]
  simp

theorem headD_eq_getD {α : Type} (l : List α) (d : α) : l.headD d = l.getD 0 d := by
  cases l <;> rfl

theorem range_getD (R i : ℕ) (h : i < R) : (List.range R).getD i 0 = i := by
  rw [List.getD_eq_getElem _ _ (by simpa using h)]
  exact List.getElem_range i _

theorem grid_getD_length {α : Type} (R C : ℕ) (f : ℕ → ℕ → α) (i : ℕ)
    (hi : i < R) : ((grid R C f).getD i []).length = C := by
  unfold grid
  rw [getD_map_lt _ (List.range R) i (by simpa using hi) [] 0, range_getD R i hi]
  simp

theorem grid_headD_length {α : Type} (R C : ℕ) (f : ℕ → ℕ → α) (h : 0 < R) :
    ((grid R C f).headD []).length = C := by
  rw [headD_eq_getD]
  exact grid_getD_length R C f 0 h

theorem grid_get {α : Type} (R C : ℕ) (f : ℕ → ℕ → α) (i j : ℕ)
    (hi : i < R) (hj : j < C) (d2 : α) :
    ((grid R C f).getD i []).getD j d2 = f i j := by
  unfold grid
  rw [getD_map_lt _ (List.range R) i (by simpa using hi) [] 0, range_getD R i hi,
    getD_map_lt _ (List.range C) j (by simpa using hj) d2 0, range_getD C j hj]

/-- scipy boundary mode 'reflect' (the median_filter default): indices are
reflected about the array edges with period 2n. -/
def reflectIndex (n : ℕ) (i : ℤ) : ℕ :=
  if n = 0 then 0
  else
    let j := (i % (2 * (n : ℤ))).toNat
    if j < n then j else 2 * n - 1 - j

/-- Reflected 2D array access used by ndi.median_filter. -/
def getRefl (im : List (List ℚ)) (R C : ℕ) (i j : ℤ) : ℚ :=
  (im.getD (reflectIndex R i) []).getD (reflectIndex C j) 0

/-- The nine offsets of the 3x3 median footprint (size=3). -/
def offsets9 : List (ℤ × ℤ) :=
  [(-1, -1), (-1, 0), (-1, 1), (0, -1), (0, 0), (0, 1), (1, -1), (1, 0), (1, 1)]

/-- Median of a list: sort ascending and take the middle element; for the
odd-size (9-element) neighborhoods used here this is the scipy median. -/
def medianQ (l : List ℚ) : ℚ :=
  (l.mergeSort (fun a b => decide (a ≤ b))).getD (l.length / 2) 0

/-- Embedding of im_filt = ndi.median_filter(im, size=3): every output
pixel is the median of its 3x3 reflected neighborhood; output dimensions
are those of the input. -/
def median_filter (im : List (List ℚ)) : List (List ℚ) :=
  grid im.length ((im.headD []).length) fun i j =>
    medianQ (offsets9.map fun od =>
      getRefl im im.length ((im.headD []).length) ((i : ℤ) + od.1) ((j : ℤ) + od.2))

/-- The notebook's im_filt value. -/
def im_filt (im : List (List ℚ)) : List (List ℚ) := median_filter im

/-- Embedding of mask_start = np.where(im_filt > 60, 1, 0). -/
def mask_start (im : List (List ℚ)) : List (List ℕ) :=
  (im_filt im).map (List.map fun x => if (60 : ℚ) < x then 1 else 0)

/-- Boolean read of a 2D grid with scipy border_value = 0 outside. -/
def getBit (g : List (List Bool)) (i j : ℤ) : Bool :=
  if 0 ≤ i ∧ 0 ≤ j then (g.getD i.toNat []).getD j.toNat false else false

/-- The default scipy 2D structuring element: the face-adjacency cross. -/
def crossOffsets : List (ℤ × ℤ) := [(0, 0), (-1, 0), (1, 0), (0, -1), (0, 1)]

/-- ndi.binary_dilation with the default cross structure, border_value 0. -/
def binary_dilation (g : List (List Bool)) : List (List Bool) :=
  grid g.length ((g.headD []).length) fun i j =>
    crossOffsets.any fun od => getBit g ((i : ℤ) + od.1) ((j : ℤ) + od.2)

/-- ndi.binary_erosion with the default cross structure, border_value 0. -/
def binary_erosion (g : List (List Bool)) : List (List Bool) :=
  grid g.length ((g.headD []).length) fun i j =>
    crossOffsets.all fun od => getBit g ((i : ℤ) + od.1) ((j : ℤ) + od.2)

/-- ndi.binary_closing: dilation followed by erosion (dilate-then-erode),
nonzero input cells taken as foreground (the notebook passes the 0/1
integer array mask_start). -/
def binary_closing (m : List (List ℕ)) : List (List Bool) :=
  binary_erosion (binary_dilation (m.map (List.map fun v => !(v == 0))))

/-- Embedding of the first segmentation cell of ch3.ipynb:
im_filt = ndi.median_filter(im, size=3);
mask_start = np.where(im_filt > 60, 1, 0);
mask = ndi.binary_closing(mask_start). -/
def mask (im : List (List ℚ)) : List (List Bool) := binary_closing (mask_start im)

theorem headD_map_listmap {α β : Type} (f : α → β) (m : List (List α)) :
    ((m.map (List.map f)).headD []).length = (m.headD []).length := by
  cases m <;> simp

theorem binary_closing_length (m : List (List ℕ)) :
    (binary_closing m).length = m.length := by
  unfold binary_closing binary_erosion binary_dilation
  simp [grid_length]

theorem binary_closing_row_length (m : List (List ℕ)) :
    ∀ row ∈ binary_closing m, row.length = (m.headD []).length := by
  intro row hrow
  unfold binary_closing binary_erosion at hrow
  have hlen := grid_row_length _ _ _ row hrow
  rw [hlen]
  cases m with
  | nil => simp [binary_dilation, grid]
  | cons r rest =>
      unfold binary_dilation
      rw [grid_headD_length _ _ _ (by simp)]
      exact headD_map_listmap _ _

theorem im_filt_headD_length (im : List (List ℚ)) :
    ((im_filt im).headD []).length = (im.headD []).length := by
  cases im with
  | nil => simp [im_filt, median_filter, grid]
  | cons r rest =>
      unfold im_filt median_filter
      rw [grid_headD_length _ _ _ (by simp)]

theorem mask_start_headD_length (im : List (List ℚ)) :
    ((mask_start im).headD []).length = (im.headD []).length := by
  unfold mask_start
  rw [headD_map_listmap]
  exact im_filt_headD_length im

theorem mask_length (im : List (List ℚ)) : (mask im).length = im.length := by
  unfold mask
  rw [binary_closing_length]
  unfold mask_start im_filt median_filter
  simp [grid_length]

theorem mask_getD_length (im : List (List ℚ)) (i : ℕ) (hi : i < im.length) :
    ((mask im).getD i []).length = (im.headD []).length := by
  have hi2 : i < (mask im).length := by rw [mask_length]; exact hi
  have hmem : (mask im).getD i [] ∈ mask im := by
    rw [List.getD_eq_getElem _ _ hi2]
    exact List.getElem_mem hi2
  have h := binary_closing_row_length (mask_start im) _ hmem
  rw [h, mask_start_headD_length]

theorem mask_start_get (im : List (List ℚ)) (i j : ℕ)
    (hi : i < im.length) (hj : j < (im.headD []).length) :
    ((mask_start im).getD i []).getD j 0 =
      (if (60 : ℚ) < ((im_filt im).getD i []).getD j 0 then 1 else 0) := by
  have hif : (im_filt im).length = im.length := by
    unfold im_filt median_filter
    exact grid_length _ _ _
  have hrow : ((im_filt im).getD i []).length = (im.headD []).length := by
    unfold im_filt median_filter
    exact grid_getD_length _ _ _ i hi
  unfold mask_start
  rw [getD_map_lt (List.map fun x => if (60 : ℚ) < x then (1 : ℕ) else 0)
    (im_filt im) i (by rw [hif]; exact hi) [] []]
  rw [getD_map_lt (fun x => if (60 : ℚ) < x then (1 : ℕ) else 0)
    ((im_filt im).getD i []) j (by rw [hrow]; exact hj) 0 0]

/-- C4: the segmentation pipeline first median-filters the volume, then
thresholds the filtered result (cell true exactly where filtered intensity
exceeds 60), then applies binary closing (dilate-then-erode); the
resulting mask has exactly the shape of the rectangular input. -/
theorem mask_pipeline (im : List (List ℚ))
    (hrect : ∀ row ∈ im, row.length = (im.headD []).length) :
    mask im = binary_closing (mask_start im)
    ∧ mask_start im =
        (im_filt im).map (List.map fun x => if (60 : ℚ) < x then 1 else 0)
    ∧ im_filt im = median_filter im
    ∧ (mask im).length = im.length
    ∧ (∀ i, i < im.length → ((mask im).getD i []).length = (im.getD i []).length)
    ∧ ∀ i j, i < im.length → j < (im.headD []).length →
        ((mask_start im).getD i []).getD j 0 =
          (if (60 : ℚ) < ((im_filt im).getD i []).getD j 0 then 1 else 0) := by
  refine ⟨rfl, rfl, rfl, mask_length im, ?_, fun i j hi hj => mask_start_get im i j hi hj⟩
  intro i hi
  rw [mask_getD_length im i hi]
  have hmem : im.getD i [] ∈ im := by
    rw [List.getD_eq_getElem _ _ hi]
    exact List.getElem_mem hi
  exact (hrect _ hmem).symm

/-- C4 witness: the pipeline facts at the concrete 2x2 volume
[[100, 0], [0, 100]]. -/
theorem mask_pipeline_witness :
    (∀ row ∈ ([[100, 0], [0, 100]] : List (List ℚ)),
        row.length = (([[100, 0], [0, 100]] : List (List ℚ)).headD []).length)
    ∧ (mask [[100, 0], [0, 100]] = binary_closing (mask_start [[100, 0], [0, 100]])
      ∧ mask_start [[100, 0], [0, 100]] =
          (im_filt [[100, 0], [0, 100]]).map
            (List.map fun x => if (60 : ℚ) < x then 1 else 0)
      ∧ im_filt [[100, 0], [0, 100]] = median_filter [[100, 0], [0, 100]]
      ∧ (mask [[100, 0], [0, 100]]).length =
          ([[100, 0], [0, 100]] : List (List ℚ)).length
      ∧ (∀ i, i < ([[100, 0], [0, 100]] : List (List ℚ)).length →
          ((mask [[100, 0], [0, 100]]).getD i []).length =
            (([[100, 0], [0, 100]] : List (List ℚ)).getD i []).length)
      ∧ ∀ i j, i < ([[100, 0], [0, 100]] : List (List ℚ)).length →
          j < (([[100, 0], [0, 100]] : List (List ℚ)).headD []).length →
          ((mask_start [[100, 0], [0, 100]]).getD i []).getD j 0 =
            (if (60 : ℚ) < ((im_filt [[100, 0], [0, 100]]).getD i []).getD j 0
              then 1 else 0)) :=
  ⟨by decide, mask_pipeline [[100, 0], [0, 100]] (by decide)⟩

/-- Raster-order coordinates of an R x C grid. -/
def coords (R C : ℕ) : List (ℕ × ℕ) :=
  (List.range R).flatMap fun i => (List.range C).map fun j => (i, j)

/-- Boolean mask access as a function on coordinates (false outside). -/
def mget (m : List (List Bool)) (p : ℕ × ℕ) : Bool :=
  (m.getD p.1 []).getD p.2 false

/-- The face-adjacent neighbors of a cell: 4-connectivity, the ndi.label
default structuring element. -/
def nbrs (p : ℕ × ℕ) : List (ℕ × ℕ) :=
  [(p.1 + 1, p.2), (p.1, p.2 + 1)]
    ++ (if 0 < p.1 then [(p.1 - 1, p.2)] else [])
    ++ (if 0 < p.2 then [(p.1, p.2 - 1)] else [])

/-- Flood fill: pop a cell from the worklist; an unlabeled foreground cell
receives label k and its face neighbors are pushed.  Fuel bounds the
number of steps; each labeling pushes at most four cells, so the fuel
chosen in ndi_label always suffices to drain the worklist. -/
def flood (mask : ℕ × ℕ → Bool) (k : ℕ) :
    ℕ → List (ℕ × ℕ) → ((ℕ × ℕ) → ℕ) → ((ℕ × ℕ) → ℕ)
  | 0, _, lab => lab
  | _ + 1, [], lab => lab
  | fuel + 1, p :: stack, lab =>
    if mask p && (lab p == 0) then
      flood mask k fuel (nbrs p ++ stack) (fun q => if q = p then k else lab q)
    else
      flood mask k fuel stack lab

/-- One step of the raster scan: an as-yet-unlabeled foreground cell
starts the next component, which is flood-filled with the next label. -/
def scanStep (mask : ℕ × ℕ → Bool) (fuel : ℕ)
    (st : ((ℕ × ℕ) → ℕ) × ℕ) (p : ℕ × ℕ) : ((ℕ × ℕ) → ℕ) × ℕ :=
  if mask p && (st.1 p == 0) then
    (flood mask (st.2 + 1) fuel [p] st.1, st.2 + 1)
  else st

/-- Modelled from the spec: labels, nlabels = ndi.label(mask) calls
external scipy code not present in the repository; the spec describes it
as flood-fill connected-component labeling under face-adjacency returning
a label map (0 = background, 1..K = components) and the component count
K.  The scan visits cells in raster order and flood-fills a new label
from every foreground cell not yet labeled. -/
def ndi_label (m : List (List Bool)) : ((ℕ × ℕ) → ℕ) × ℕ :=
  (coords m.length ((m.headD []).length)).foldl
    (scanStep (mget m) (5 * m.length * ((m.headD []).length) + 1)) (fun _ => 0, 0)

theorem scanStep_k_le (mask : ℕ × ℕ → Bool) (fuel : ℕ)
    (st : ((ℕ × ℕ) → ℕ) × ℕ) (p : ℕ × ℕ) : st.2 ≤ (scanStep mask fuel st p).2 := by
  unfold scanStep
  split
  · exact Nat.le_succ _
  · exact le_refl _

theorem foldl_scan_k_le (mask : ℕ × ℕ → Bool) (fuel : ℕ) (l : List (ℕ × ℕ))
    (st : ((ℕ × ℕ) → ℕ) × ℕ) :
    st.2 ≤ (l.foldl (scanStep mask fuel) st).2 := by
  induction l generalizing st with
  | nil => exact le_refl _
  | cons p l ih =>
      rw [List.foldl_cons]
      exact le_trans (scanStep_k_le mask fuel st p) (ih _)

theorem foldl_scan_k_zero (mask : ℕ × ℕ → Bool) (fuel : ℕ) (l : List (ℕ × ℕ))
    (st : ((ℕ × ℕ) → ℕ) × ℕ)
    (h : (l.foldl (scanStep mask fuel) st).2 = 0) :
    l.foldl (scanStep mask fuel) st = st
    ∧ ∀ p ∈ l, ¬(mask p = true ∧ st.1 p = 0) := by
  induction l generalizing st with
  | nil =>
      refine ⟨rfl, ?_⟩
      intro p hp
      cases hp
  | cons p l ih =>
      rw [List.foldl_cons] at h
      have hk : (scanStep mask fuel st p).2 = 0 :=
        Nat.eq_zero_of_le_zero (le_of_le_of_eq (foldl_scan_k_le mask fuel l _) h)
      have hcond : ¬(mask p = true ∧ st.1 p = 0) := by
        rintro ⟨h1, h2⟩
        unfold scanStep at hk
        rw [if_pos (by simp [h1, h2])] at hk
        exact Nat.succ_ne_zero _ hk
      have hstep : scanStep mask fuel st p = st := by
        unfold scanStep
        rw [if_neg]
        intro hb
        simp only [Bool.and_eq_true] at hb
        exact hcond ⟨hb.1, beq_iff_eq.mp hb.2⟩
      rw [hstep] at h
      obtain ⟨hfix, hall⟩ := ih st h
      refine ⟨by rw [List.foldl_cons, hstep]; exact hfix, ?_⟩
      intro q hq
      rcases List.mem_cons.mp hq with hq1 | hq2
      · rw [hq1]; exact hcond
      · exact hall q hq2

theorem foldl_scan_id (mask : ℕ × ℕ → Bool) (fuel : ℕ) (l : List (ℕ × ℕ))
    (st : ((ℕ × ℕ) → ℕ) × ℕ)
    (h : ∀ p ∈ l, mask p = false) :
    l.foldl (scanStep mask fuel) st = st := by
  induction l generalizing st with
  | nil => rfl
  | cons p l ih =>
      rw [List.foldl_cons]
      have hstep : scanStep mask fuel st p = st := by
        unfold scanStep
        rw [if_neg]
        intro hb
        simp only [Bool.and_eq_true] at hb
        have h1 := hb.1
        rw [h p (List.mem_cons_self p l)] at h1
        exact Bool.false_ne_true h1
      rw [hstep]
      exact ih st fun q hq => h q (List.mem_cons_of_mem p hq)

theorem mem_coords (R C : ℕ) (p : ℕ × ℕ) :
    p ∈ coords R C ↔ p.1 < R ∧ p.2 < C := by
  unfold coords
  constructor
  · intro h
    rcases List.mem_flatMap.mp h with ⟨i, hi, hmem⟩
    rcases List.mem_map.mp hmem with ⟨j, hj, hpj⟩
    rw [← hpj]
    exact ⟨List.mem_range.mp hi, List.mem_range.mp hj⟩
  · rintro ⟨h1, h2⟩
    exact List.mem_flatMap.mpr
      ⟨p.1, List.mem_range.mpr h1, List.mem_map.mpr ⟨p.2, List.mem_range.mpr h2, rfl⟩⟩

/-- C5: the component count K of ndi.label is a natural number (hence
K ≥ 0 by type), and K = 0 exactly when the rectangular mask is all-false;
an all-false mask is a valid input, not an error. -/
theorem ndi_label_K_zero_iff (m : List (List Bool))
    (hrect : ∀ row ∈ m, row.length = (m.headD []).length) :
    0 ≤ (ndi_label m).2
    ∧ ((ndi_label m).2 = 0 ↔ ∀ b ∈ m.flatten, b = false) := by
  refine ⟨Nat.zero_le _, ?_, ?_⟩
  · intro h
    unfold ndi_label at h
    obtain ⟨_, hall⟩ := foldl_scan_k_zero _ _ _ _ h
    intro b hb
    rcases List.mem_flatten.mp hb with ⟨row, hrowm, hbrow⟩
    rcases List.mem_iff_getElem.mp hrowm with ⟨i, hi, hrowi⟩
    rcases List.mem_iff_getElem.mp hbrow with ⟨j, hj, hbij⟩
    have hC : row.length = (m.headD []).length := hrect row hrowm
    have hmemc : ((i, j) : ℕ × ℕ) ∈ coords m.length ((m.headD []).length) :=
      (mem_coords _ _ _).mpr ⟨hi, by rw [← hC]; exact hj⟩
    have hng := hall (i, j) hmemc
    by_contra hb2
    apply hng
    refine ⟨?_, rfl⟩
    unfold mget
    rw [List.getD_eq_getElem m [] hi, hrowi, List.getD_eq_getElem row false hj, hbij]
    cases b with
    | false => exact absurd rfl hb2
    | true => rfl
  · intro h
    unfold ndi_label
    have hmask : ∀ p ∈ coords m.length ((m.headD []).length), mget m p = false := by
      intro p hp
      obtain ⟨h1, h2⟩ := (mem_coords _ _ _).mp hp
      unfold mget
      rw [List.getD_eq_getElem m [] h1]
      have hrl : m[p.1].length = (m.headD []).length := hrect _ (List.getElem_mem h1)
      have h2b : p.2 < m[p.1].length := by rw [hrl]; exact h2
      rw [List.getD_eq_getElem _ false h2b]
      exact h _ (List.mem_flatten.mpr ⟨m[p.1], List.getElem_mem h1, List.getElem_mem h2b⟩)
    rw [foldl_scan_id _ _ _ _ hmask]

/-- C5 witness: the iff at the concrete one-cell foreground mask. -/
theorem ndi_label_K_zero_iff_witness :
    (∀ row ∈ ([[true]] : List (List Bool)),
        row.length = (([[true]] : List (List Bool)).headD []).length)
    ∧ (0 ≤ (ndi_label [[true]]).2
      ∧ ((ndi_label [[true]]).2 = 0 ↔
          ∀ b ∈ ([[true]] : List (List Bool)).flatten, b = false)) :=
  ⟨by decide, ndi_label_K_zero_iff [[true]] (by decide)⟩

theorem sum_map_indicator (x : ℕ) (bs : List ℕ) (hnd : bs.Nodup) :
    (bs.map fun b => if x = b then 1 else 0).sum = if x ∈ bs then 1 else 0 := by
  induction bs with
  | nil => simp
  | cons b bs ih =>
      have hb : b ∉ bs := (List.nodup_cons.mp hnd).1
      have ih2 := ih (List.nodup_cons.mp hnd).2
      simp only [List.map_cons, List.sum_cons, ih2, List.mem_cons]
      by_cases hx : x = b
      · subst hx
        simp [hb]
      · simp [hx]

theorem sum_map_add {α : Type} (l : List α) (f g : α → ℕ) :
    (l.map fun a => f a + g a).sum = (l.map f).sum + (l.map g).sum := by
  induction l with
  | nil => simp
  | cons a l ih =>
      simp only [List.map_cons, List.sum_cons, ih]
      omega

theorem sum_map_count (bs ls : List ℕ) (hnd : bs.Nodup) :
    (bs.map fun b => ls.count b).sum = ls.countP fun v => decide (v ∈ bs) := by
  induction ls with
  | nil => simp
  | cons x xs ih =>
      have hmap : (bs.map fun b => (x :: xs).count b) =
          bs.map fun b => xs.count b + if x = b then 1 else 0 := by
        apply List.map_congr_left
        intro b _
        rw [List.count_cons]
        simp
      rw [hmap, sum_map_add, ih, sum_map_indicator x bs hnd, List.countP_cons]
      simp

theorem sum_map_mul_right {α : Type} (l : List α) (f : α → ℚ) (c : ℚ) :
    (l.map fun a => f a * c).sum = (l.map f).sum * c := by
  induction l with
  | nil => simp
  | cons a l ih => simp [ih, add_mul]

/-- Modelled from the spec: measure_volume(label_map, selected_label,
voxel_physical_volume) counts voxels equal to the selected label and
multiplies by the physical voxel volume.  The notebook cell that was to
compute it ("Calculate volume" / the time-series cell of ch3.ipynb) is an
unfilled exercise scaffold. -/
def measure_volume (lm : List (List ℕ)) (lab : ℕ) (dv : ℚ) : ℚ :=
  (lm.flatten.count lab : ℚ) * dv

/-- Modelled from the spec: the same measurement taken over the
unrestricted non-background mask, counting every voxel with
label_map != 0. -/
def measure_foreground (lm : List (List ℕ)) (dv : ℚ) : ℚ :=
  (lm.flatten.countP (fun v => !(v == 0)) : ℚ) * dv

/-- C6: for a label map whose values all lie in 0..K and a positive voxel
volume, measure_volume summed over the labels 1..K equals the measurement
over the unrestricted non-background mask: voxel count is conserved
across the label partition. -/
theorem measure_volume_conservation (lm : List (List ℕ)) (K : ℕ) (dv : ℚ)
    (hdv : 0 < dv) (hK : ∀ v ∈ lm.flatten, v ≤ K) :
    ((List.range K).map fun i => measure_volume lm (i + 1) dv).sum =
      measure_foreground lm dv := by
  have hdv2 : dv ≠ 0 := ne_of_gt hdv
  unfold measure_volume measure_foreground
  rw [sum_map_mul_right]
  congr 1
  have hcast : ((List.range K).map fun i => ((lm.flatten.count (i + 1) : ℕ) : ℚ)) =
      ((List.range K).map fun i => lm.flatten.count (i + 1)).map (Nat.cast : ℕ → ℚ) := by
    rw [List.map_map]
    rfl
  rw [hcast, ← Nat.cast_list_sum]
  have hnat : ((List.range K).map fun i => lm.flatten.count (i + 1)).sum =
      lm.flatten.countP fun v => !(v == 0) := by
    have hcomp : ((List.range K).map fun i => lm.flatten.count (i + 1)) =
        ((List.range K).map fun i => i + 1).map fun b => lm.flatten.count b := by
      rw [List.map_map]
      rfl
    have hnd : ((List.range K).map fun i => i + 1).Nodup :=
      (List.nodup_range K).map fun a b h => by omega
    rw [hcomp, sum_map_count _ _ hnd]
    apply List.countP_congr
    intro v hv
    have hvK := hK v hv
    constructor
    · intro hmem
      rcases List.mem_map.mp (of_decide_eq_true hmem) with ⟨i, _, hiv⟩
      simp only [Bool.not_eq_true', beq_eq_false_iff_ne, ne_eq]
      omega
    · intro hne
      apply decide_eq_true
      apply List.mem_map.mpr
      refine ⟨v - 1, List.mem_range.mpr ?_, ?_⟩
      · simp only [Bool.not_eq_true', beq_eq_false_iff_ne, ne_eq] at hne
        omega
      · simp only [Bool.not_eq_true', beq_eq_false_iff_ne, ne_eq] at hne
        omega
  rw [hnat]

/-- C6 witness: conservation at a concrete label map with K = 2 and
dv = 3/2. -/
theorem measure_volume_conservation_witness :
    ((0 : ℚ) < 3 / 2 ∧ ∀ v ∈ ([[0, 1], [2, 1]] : List (List ℕ)).flatten, v ≤ 2)
    ∧ ((List.range 2).map fun i => measure_volume [[0, 1], [2, 1]] (i + 1) (3 / 2)).sum =
        measure_foreground [[0, 1], [2, 1]] (3 / 2) :=
  ⟨⟨by norm_num, by decide⟩,
    measure_volume_conservation [[0, 1], [2, 1]] 2 (3 / 2) (by norm_num) (by decide)⟩

/-- Modelled from the spec: build_volume_series applies the per-frame
measurement in time order; the anchor lookup is repeated per frame since
connected-component label values are not stable across frames.  The
notebook's time-series cell (ts[t] = ____ inside a loop over frames) is
an unfilled exercise scaffold. -/
def build_volume_series (frames : List (List (List ℕ))) (anchor : ℕ × ℕ)
    (dv : ℚ) : List ℚ :=
  frames.map fun lm => measure_volume lm (lv_val lm anchor.1 anchor.2) dv

/-- C7: the volume series always has exactly one entry per input frame —
for any frame count, including 0 and 1 — and the entry at time index t is
the measurement of frame t (frames past the end measure the empty frame,
whose measurement is the default 0). -/
theorem build_volume_series_length (frames : List (List (List ℕ)))
    (anchor : ℕ × ℕ) (dv : ℚ) :
    (build_volume_series frames anchor dv).length = frames.length
    ∧ ∀ t, (build_volume_series frames anchor dv).getD t 0 =
        measure_volume (frames.getD t [])
          (lv_val (frames.getD t []) anchor.1 anchor.2) dv := by
  refine ⟨List.length_map _ _, ?_⟩
  intro t
  by_cases ht : t < frames.length
  · unfold build_volume_series
    rw [getD_map_lt _ frames t ht 0 []]
  · have hlen : (build_volume_series frames anchor dv).length ≤ t := by
      simp only [build_volume_series, List.length_map]
      omega
    rw [List.getD_eq_default _ _ hlen, List.getD_eq_default _ _ (le_of_not_lt ht)]
    unfold measure_volume
    simp

/-- uint8 elementwise subtraction: numpy wraps the difference modulo 256
(operands are already uint8, hence reduced modulo 256). -/
def u8sub (a b : ℕ) : ℕ := (a % 256 + 256 - b % 256) % 256

/-- Embedding of abs_err = np.abs(im1 - im2) on uint8 images: the
subtraction wraps modulo 256 and np.abs is the identity on the unsigned
result. -/
def u8AbsDiff (im1 im2 : List ℕ) : List ℕ := List.zipWith u8sub im1 im2

/-- Embedding of mean_abs_err = np.mean(np.abs(im1 - im2)) on uint8
images from ch4.ipynb: np.mean promotes to float and divides the sum by
the element count (nan on an empty array). -/
def mean_abs_err (im1 im2 : List ℕ) : NpFloat :=
  npDiv (((u8AbsDiff im1 im2).sum : ℕ) : ℚ) (((u8AbsDiff im1 im2).length : ℕ) : ℚ)

/-- Modelled from the claim under test: the true mean absolute intensity
difference, with exact (non-wrapping) per-pixel absolute differences. -/
def true_mean_abs_err (im1 im2 : List ℕ) : NpFloat :=
  npDiv (((List.zipWith (fun a b => ((a : ℤ) - b).natAbs) im1 im2).sum : ℕ) : ℚ)
    (((List.zipWith (fun a b => ((a : ℤ) - b).natAbs) im1 im2).length : ℕ) : ℚ)

/-- C8 counterexample: on the one-pixel uint8 images im1 = [0] and
im2 = [128], im2 exceeds im1 at the pixel, yet the wrapped error
256 - 128 = 128 coincides with the true absolute difference, so the
reported MAE equals the true mean absolute intensity difference. -/
theorem mean_abs_err_coincides_at_128 :
    ([0] : List ℕ).getD 0 0 < ([128] : List ℕ).getD 0 0
    ∧ mean_abs_err [0] [128] = true_mean_abs_err [0] [128] := by
  constructor
  · decide
  · show npDiv ((([(0 % 256 + 256 - 128 % 256) % 256] : List ℕ).sum : ℕ) : ℚ)
        ((([(0 % 256 + 256 - 128 % 256) % 256] : List ℕ).length : ℕ) : ℚ) =
      npDiv ((([(((0 : ℤ) - 128).natAbs : ℕ)] : List ℕ).sum : ℕ) : ℚ)
        ((([(((0 : ℤ) - 128).natAbs : ℕ)] : List ℕ).length : ℕ) : ℚ)
    norm_num

/-- C8 (amended): for uint8 images, at every pixel where im2 exceeds im1
the computed per-pixel error of np.abs(im1 - im2) equals
256 - (im2 - im1) (modulo-256 wrap-around), and this differs from the
true absolute difference im2 - im1 whenever that difference is not
exactly 128 (at 128 the two coincide), so the reported MAE generally is
not the mean absolute intensity difference. -/
theorem u8AbsDiff_wraps (im1 im2 : List ℕ) (i : ℕ)
    (h1 : ∀ x ∈ im1, x < 256) (h2 : ∀ x ∈ im2, x < 256)
    (hlen : im1.length = im2.length) (hi : i < im1.length)
    (hlt : im1.getD i 0 < im2.getD i 0) :
    (u8AbsDiff im1 im2).getD i 0 = 256 - (im2.getD i 0 - im1.getD i 0)
    ∧ (im2.getD i 0 - im1.getD i 0 ≠ 128 →
        (u8AbsDiff im1 im2).getD i 0 ≠ im2.getD i 0 - im1.getD i 0) := by
  have hi2 : i < im2.length := hlen ▸ hi
  have hiz : i < (u8AbsDiff im1 im2).length := by
    simp only [u8AbsDiff, List.length_zipWith]
    omega
  have ha : im1.getD i 0 ∈ im1 := by
    rw [List.getD_eq_getElem _ _ hi]
    exact List.getElem_mem hi
  have hb : im2.getD i 0 ∈ im2 := by
    rw [List.getD_eq_getElem _ _ hi2]
    exact List.getElem_mem hi2
  have ha256 := h1 _ ha
  have hb256 := h2 _ hb
  have hval : (u8AbsDiff im1 im2).getD i 0 = u8sub (im1.getD i 0) (im2.getD i 0) := by
    rw [List.getD_eq_getElem _ _ hiz]
    unfold u8AbsDiff
    rw [List.getElem_zipWith, List.getD_eq_getElem _ _ hi, List.getD_eq_getElem _ _ hi2]
  rw [hval]
  unfold u8sub
  have hmod_a : im1.getD i 0 % 256 = im1.getD i 0 := Nat.mod_eq_of_lt ha256
  have hmod_b : im2.getD i 0 % 256 = im2.getD i 0 := Nat.mod_eq_of_lt hb256
  rw [hmod_a, hmod_b]
  have hlt2 : im1.getD i 0 + 256 - im2.getD i 0 < 256 := by omega
  rw [Nat.mod_eq_of_lt hlt2]
  constructor
  · omega
  · intro hne
    omega

/-- C8 witness: the amended wrap-around facts at the concrete uint8
images [10] and [20]. -/
theorem u8AbsDiff_wraps_witness :
    ((∀ x ∈ ([10] : List ℕ), x < 256) ∧ (∀ x ∈ ([20] : List ℕ), x < 256)
      ∧ ([10] : List ℕ).length = ([20] : List ℕ).length
      ∧ 0 < ([10] : List ℕ).length
      ∧ ([10] : List ℕ).getD 0 0 < ([20] : List ℕ).getD 0 0)
    ∧ ((u8AbsDiff [10] [20]).getD 0 0 =
        256 - (([20] : List ℕ).getD 0 0 - ([10] : List ℕ).getD 0 0)
      ∧ (([20] : List ℕ).getD 0 0 - ([10] : List ℕ).getD 0 0 ≠ 128 →
          (u8AbsDiff [10] [20]).getD 0 0 ≠
            ([20] : List ℕ).getD 0 0 - ([10] : List ℕ).getD 0 0)) :=
  ⟨⟨by decide, by decide, by decide, by decide, by decide⟩,
    u8AbsDiff_wraps [10] [20] 0 (by decide) (by decide) (by decide) (by decide) (by decide)⟩

/-- Embedding of intersection_of_union from ch4.ipynb:
i = np.logical_and(im1, im2); u = np.logical_or(im1, im2);
return i.sum() / u.sum().  Boolean sums are true-counts and the division
is unguarded (npDiv yields nan on 0/0). -/
def intersection_of_union (im1 im2 : List Bool) : NpFloat :=
  npDiv (((List.zipWith (· && ·) im1 im2).countP id : ℕ) : ℚ)
    (((List.zipWith (· || ·) im1 im2).countP id : ℕ) : ℚ)

theorem count_and_le_count_or (l1 l2 : List Bool) :
    (List.zipWith (· && ·) l1 l2).countP id ≤
      (List.zipWith (· || ·) l1 l2).countP id := by
  induction l1 generalizing l2 with
  | nil => simp
  | cons x xs ih =>
      cases l2 with
      | nil => simp
      | cons y ys =>
          simp only [List.zipWith_cons_cons, List.countP_cons]
          have h := ih ys
          cases x <;> cases y <;> simp <;> omega

theorem zipWith_false_counts : ∀ l1 l2 : List Bool,
    (∀ x ∈ l1, x = false) → (∀ x ∈ l2, x = false) →
    (List.zipWith (· && ·) l1 l2).countP id = 0
    ∧ (List.zipWith (· || ·) l1 l2).countP id = 0 := by
  intro l1
  induction l1 with
  | nil => intro l2 _ _; simp
  | cons x xs ih =>
      intro l2 h1 h2
      cases l2 with
      | nil => simp
      | cons y ys =>
          have hx := h1 x (List.mem_cons_self x xs)
          have hy := h2 y (List.mem_cons_self y ys)
          obtain ⟨ha, ho⟩ := ih ys (fun q hq => h1 q (List.mem_cons_of_mem x hq))
            (fun q hq => h2 q (List.mem_cons_of_mem y hq))
          subst hx
          subst hy
          simp [List.zipWith_cons_cons, List.countP_cons, ha, ho]

/-- C9: on same-shape boolean masks, intersection_of_union is symmetric;
when the union contains at least one true pixel the result is a finite
value in [0, 1]; when both masks are all-false the denominator u.sum() is
0 and the unguarded division produces NaN. -/
theorem intersection_of_union_props (im1 im2 : List Bool)
    (hlen : im1.length = im2.length) :
    intersection_of_union im1 im2 = intersection_of_union im2 im1
    ∧ ((List.zipWith (· || ·) im1 im2).countP id ≠ 0 →
        ∃ q, intersection_of_union im1 im2 = .val q ∧ 0 ≤ q ∧ q ≤ 1)
    ∧ ((∀ x ∈ im1, x = false) → (∀ x ∈ im2, x = false) →
        intersection_of_union im1 im2 = .nan) := by
  have _hlen := hlen
  refine ⟨?_, ?_, ?_⟩
  · unfold intersection_of_union
    rw [List.zipWith_comm_of_comm (· && ·) Bool.and_comm im1 im2,
      List.zipWith_comm_of_comm (· || ·) Bool.or_comm im1 im2]
  · intro hu
    unfold intersection_of_union
    have hle : (List.zipWith (· && ·) im1 im2).countP id ≤
        (List.zipWith (· || ·) im1 im2).countP id :=
      count_and_le_count_or im1 im2
    have hpos : 0 < (List.zipWith (· || ·) im1 im2).countP id :=
      Nat.pos_of_ne_zero hu
    have hQpos : (0 : ℚ) < (((List.zipWith (· || ·) im1 im2).countP id : ℕ) : ℚ) := by
      exact_mod_cast hpos
    refine ⟨(((List.zipWith (· && ·) im1 im2).countP id : ℕ) : ℚ) /
      (((List.zipWith (· || ·) im1 im2).countP id : ℕ) : ℚ), ?_, ?_, ?_⟩
    · unfold npDiv
      rw [if_neg (ne_of_gt hQpos)]
    · positivity
    · rw [div_le_one hQpos]
      exact_mod_cast hle
  · intro h1 h2
    obtain ⟨ha, ho⟩ := zipWith_false_counts im1 im2 h1 h2
    unfold intersection_of_union
    rw [ha, ho]
    norm_num [npDiv]

/-- C9 witness: the properties at the concrete same-length masks
[true, false] and [false, false]. -/
theorem intersection_of_union_props_witness :
    ([true, false] : List Bool).length = ([false, false] : List Bool).length
    ∧ (intersection_of_union [true, false] [false, false] =
        intersection_of_union [false, false] [true, false]
      ∧ ((List.zipWith (· || ·) [true, false] [false, false]).countP id ≠ 0 →
          ∃ q, intersection_of_union [true, false] [false, false] = .val q
            ∧ 0 ≤ q ∧ q ≤ 1)
      ∧ ((∀ x ∈ ([true, false] : List Bool), x = false) →
          (∀ x ∈ ([false, false] : List Bool), x = false) →
          intersection_of_union [true, false] [false, false] = .nan)) :=
  ⟨rfl, intersection_of_union_props [true, false] [false, false] rfl⟩

/-- Embedding of hist = ndi.histogram(im, min=0, max=255, bins=256) for a
uint8 image flattened to a pixel list: bin b counts the pixels with
intensity exactly b (one bin per possible uint8 value). -/
def hist (pixels : List ℕ) : List ℕ :=
  (List.range 256).map fun b => pixels.count b

/-- np.cumsum: the running partial sums, one per entry. -/
def cumsum : List ℕ → List ℕ
  | [] => []
  | x :: xs => x :: (cumsum xs).map (fun c => x + c)

/-- Embedding of cdf = hist.cumsum() / hist.sum() from the intensity
chapter: elementwise float division of the cumulative counts by the
scalar total. -/
def cdf (pixels : List ℕ) : List ℚ :=
  (cumsum (hist pixels)).map fun (c : ℕ) => (c : ℚ) / ((hist pixels).sum : ℚ)

theorem cumsum_le_sum (l : List ℕ) : ∀ c ∈ cumsum l, c ≤ l.sum := by
  induction l with
  | nil => intro c hc; cases hc
  | cons x xs ih =>
      intro c hc
      rcases List.mem_cons.mp hc with h | h
      · rw [h, List.sum_cons]
        exact Nat.le_add_right x _
      · rcases List.mem_map.mp h with ⟨c2, hc2, hadd⟩
        have hle := ih c2 hc2
        rw [← hadd, List.sum_cons]
        omega

theorem cumsum_chain (l : List ℕ) : List.Chain' (· ≤ ·) (cumsum l) := by
  induction l with
  | nil => simp [cumsum]
  | cons x xs ih =>
      show List.Chain' (· ≤ ·) (x :: (cumsum xs).map fun c => x + c)
      apply List.chain'_cons'.mpr
      constructor
      · intro y hy
        rw [List.head?_map] at hy
        cases hcs : (cumsum xs).head? with
        | none => rw [hcs] at hy; cases hy
        | some c =>
            rw [hcs] at hy
            have hyc : x + c = y := by simpa using hy
            omega
      · rw [List.chain'_map]
        exact List.Chain'.imp (fun a b hab => by omega) ih

theorem cumsum_getLast_cons (x : ℕ) (xs : List ℕ) :
    (cumsum (x :: xs)).getLast? = some (x + xs.sum) := by
  induction xs generalizing x with
  | nil => simp [cumsum]
  | cons y ys ih =>
      have heq : cumsum (x :: y :: ys) = x :: cumsum ((x + y) :: ys) := by
        show x :: (cumsum (y :: ys)).map (fun c => x + c) = x :: cumsum ((x + y) :: ys)
        congr 1
        show ((y :: (cumsum ys).map fun c => y + c).map fun c => x + c) =
          (x + y) :: (cumsum ys).map fun c => (x + y) + c
        rw [List.map_cons, List.map_map]
        congr 1
        apply List.map_congr_left
        intro a _
        show x + (y + a) = (x + y) + a
        omega
      rw [heq]
      have h2 : (x :: cumsum ((x + y) :: ys)).getLast? =
          (cumsum ((x + y) :: ys)).getLast? := by
        show (x :: ((x + y) :: (cumsum ys).map fun c => (x + y) + c)).getLast? = _
        rw [List.getLast?_cons_cons]
        rfl
      rw [h2, ih]
      rw [List.sum_cons]
      congr 1
      omega

/-- C10: for a non-empty uint8 image, the CDF computed as
hist.cumsum() / hist.sum() is monotonically non-decreasing, lies in
[0, 1] at every bin, and its final entry equals exactly 1. -/
theorem cdf_props (pixels : List ℕ) (hne : pixels ≠ [])
    (h8 : ∀ p ∈ pixels, p < 256) :
    List.Chain' (· ≤ ·) (cdf pixels)
    ∧ (∀ x ∈ cdf pixels, 0 ≤ x ∧ x ≤ 1)
    ∧ (cdf pixels).getLast? = some 1 := by
  have hsum : (hist pixels).sum = pixels.length := by
    unfold hist
    rw [sum_map_count _ _ (List.nodup_range 256)]
    apply List.countP_eq_length.mpr
    intro v hv
    exact decide_eq_true (List.mem_range.mpr (h8 v hv))
  have hpos : 0 < (hist pixels).sum := by
    rw [hsum]
    exact List.length_pos.mpr hne
  have hQpos : (0 : ℚ) < (((hist pixels).sum : ℕ) : ℚ) := by exact_mod_cast hpos
  refine ⟨?_, ?_, ?_⟩
  · unfold cdf
    rw [List.chain'_map]
    apply List.Chain'.imp ?_ (cumsum_chain (hist pixels))
    intro a b hab
    rw [div_le_div_iff_of_pos_right hQpos]
    exact_mod_cast hab
  · intro x hx
    unfold cdf at hx
    rcases List.mem_map.mp hx with ⟨c, hc, hcx⟩
    rw [← hcx]
    constructor
    · exact div_nonneg (Nat.cast_nonneg c) (le_of_lt hQpos)
    · rw [div_le_one hQpos]
      exact_mod_cast cumsum_le_sum (hist pixels) c hc
  · unfold cdf
    rw [List.getLast?_map]
    cases hh : hist pixels with
    | nil =>
        have hlen : (hist pixels).length = 256 := by simp [hist]
        rw [hh] at hlen
        simp at hlen
    | cons h0 rest =>
        rw [hh] at hQpos
        rw [cumsum_getLast_cons h0 rest]
        rw [Option.map_some', Option.some.injEq, List.sum_cons]
        push_cast
        apply div_self
        rw [List.sum_cons] at hQpos
        push_cast at hQpos
        exact ne_of_gt hQpos

/-- C10 witness: the CDF properties at the concrete one-pixel image [7]. -/
theorem cdf_props_witness :
    (([7] : List ℕ) ≠ [] ∧ ∀ p ∈ ([7] : List ℕ), p < 256)
    ∧ (List.Chain' (· ≤ ·) (cdf [7])
      ∧ (∀ x ∈ cdf [7], 0 ≤ x ∧ x ≤ 1)
      ∧ (cdf [7]).getLast? = some 1) :=
  ⟨⟨by simp, by decide⟩, cdf_props [7] (by simp) (by decide)⟩

end BioImage
